import Mathlib

/-!
Verification of the pixel-addressing engine of the Adafruit_DotStarMatrix
library (`Adafruit_DotStarMatrix.cpp` / `Adafruit_DotStarMatrix.h`).

The C++ class `Adafruit_DotStarMatrix` is embedded shallowly: its fields
become a Lean structure `DSMatrix`, the member function `drawPixel` becomes
a pure function that returns the (unchanged) object state together with the
optional `(linearIndex, color)` pair it would emit to `setPixelColor`, and
the flag constants `DS_MATRIX_*` / `DS_TILE_*` are copied from the header.
All machine integers are modelled as `Nat` (coordinates arrive as `Int`,
mirroring the signed `int16_t` draw coordinates); the claims under
verification only concern argument ranges where the C++ `uint8_t`/`uint16_t`
arithmetic does not wrap, which the theorems' bounds hypotheses enforce.
-/

namespace DotStarMatrix

/-! ### Layout flag constants (from the header `Adafruit_DotStarMatrix.h`) -/

/-- Pixel 0 is at top of matrix. -/
def DS_MATRIX_TOP : Nat := 0x00
/-- Pixel 0 is at bottom of matrix. -/
def DS_MATRIX_BOTTOM : Nat := 0x01
/-- Pixel 0 is at left of matrix. -/
def DS_MATRIX_LEFT : Nat := 0x00
/-- Pixel 0 is at right of matrix. -/
def DS_MATRIX_RIGHT : Nat := 0x02
/-- Bitmask for pixel 0 matrix corner. -/
def DS_MATRIX_CORNER : Nat := 0x03
/-- Matrix is row major (horizontal). -/
def DS_MATRIX_ROWS : Nat := 0x00
/-- Matrix is column major (vertical). -/
def DS_MATRIX_COLUMNS : Nat := 0x04
/-- Bitmask for row/column layout. -/
def DS_MATRIX_AXIS : Nat := 0x04
/-- Same pixel order across each line. -/
def DS_MATRIX_PROGRESSIVE : Nat := 0x00
/-- Pixel order reverses between lines. -/
def DS_MATRIX_ZIGZAG : Nat := 0x08
/-- Bitmask for pixel line order. -/
def DS_MATRIX_SEQUENCE : Nat := 0x08

/-- First tile is at top of matrix. -/
def DS_TILE_TOP : Nat := 0x00
/-- First tile is at bottom of matrix. -/
def DS_TILE_BOTTOM : Nat := 0x10
/-- First tile is at left of matrix. -/
def DS_TILE_LEFT : Nat := 0x00
/-- First tile is at right of matrix. -/
def DS_TILE_RIGHT : Nat := 0x20
/-- Bitmask for first tile corner. -/
def DS_TILE_CORNER : Nat := 0x30
/-- Tiles ordered in rows. -/
def DS_TILE_ROWS : Nat := 0x00
/-- Tiles ordered in columns. -/
def DS_TILE_COLUMNS : Nat := 0x40
/-- Bitmask for tile H/V orientation. -/
def DS_TILE_AXIS : Nat := 0x40
/-- Same tile order across each line. -/
def DS_TILE_PROGRESSIVE : Nat := 0x00
/-- Tile order reverses between lines. -/
def DS_TILE_ZIGZAG : Nat := 0x80
/-- Bitmask for tile line order. -/
def DS_TILE_SEQUENCE : Nat := 0x80

/-! ### The corner/axis/zigzag core shared by both resolver levels

`drawPixel` performs the same three steps at the tile level (lines 330-357
of the .cpp) and at the pixel level (lines 369-393): flip the provisional
minor/major coordinates according to the corner-of-entry bits, swap them if
the major axis is vertical, then combine them progressively or in zigzag.
The two copies in the source differ only in which flag bits they consult,
so we factor the shared arithmetic into `orientMajMin` and `lineIndex` and
instantiate each level with its own flag bits below. -/

/-- Result of the corner/axis normalisation: the (possibly flipped and
swapped) major and minor coordinates and the `majorScale` factor. -/
structure MajMin where
  major : Nat
  minor : Nat
  scale : Nat

/-- The corner-flip and axis-swap steps common to the tile resolver
(lines 330-342) and pixel resolver (lines 369-381): `u` is the provisional
minor (bounded by `nMinor`), `v` the provisional major (bounded by
`nMajor`); `rows` selects whether the major axis stays horizontal. -/
def orientMajMin (flipMinor flipMajor rows : Bool) (nMinor nMajor u v : Nat) :
    MajMin :=
  let minor := if flipMinor then nMinor - 1 - u else u
  let major := if flipMajor then nMajor - 1 - v else v
  if rows then ⟨major, minor, nMinor⟩ else ⟨minor, major, nMajor⟩

/-- The progressive/zigzag combination step (lines 345-357 for tiles,
lines 384-393 for pixels): progressive lines, and even zigzag lines, use
`major * majorScale + minor`; odd zigzag lines reverse the minor axis. -/
def lineIndex (zig : Bool) (major minor majorScale : Nat) : Nat :=
  if zig && (major &&& 1 == 1) then (major + 1) * majorScale - 1 - minor
  else major * majorScale + minor

/-! ### Pixel resolver (`drawPixel`, lines 365-393) -/

/-- Corner/axis normalisation for the pixel level: minor starts as the
tile-local x (flipped when the corner has `DS_MATRIX_RIGHT`), major as the
tile-local y (flipped for `DS_MATRIX_BOTTOM`), swapped when
`type & DS_MATRIX_AXIS` is not `DS_MATRIX_ROWS`. -/
def pixelMajMin (type mW mH corner x y : Nat) : MajMin :=
  orientMajMin (corner &&& DS_MATRIX_RIGHT != 0) (corner &&& DS_MATRIX_BOTTOM != 0)
    ((type &&& DS_MATRIX_AXIS) == DS_MATRIX_ROWS) mW mH x y

/-- The pixel number within its tile/matrix (`pixelOffset`, lines 365-393
of the .cpp).  `corner` is passed separately because the tile-level zigzag
may have flipped the local copy of the corner bits. -/
def pixelOffset (type mW mH corner x y : Nat) : Nat :=
  let mm := pixelMajMin type mW mH corner x y
  lineIndex ((type &&& DS_MATRIX_SEQUENCE) != DS_MATRIX_PROGRESSIVE)
    mm.major mm.minor mm.scale

/-! ### Tile resolver (`drawPixel`, lines 322-362) -/

/-- What the tiled branch of `drawPixel` produces: the index of the first
pixel of the tile, the (possibly zigzag-flipped) local copy of the corner
bits, and the coordinates local to the tile. -/
structure TileRes where
  tileOffset : Nat
  corner : Nat
  lx : Nat
  ly : Nat

/-- Corner/axis normalisation for the tile level, consulting the
`DS_TILE_*` bit group (lines 330-342). -/
def tileMajMin (type tX tY tc tr : Nat) : MajMin :=
  orientMajMin (type &&& DS_TILE_RIGHT != 0) (type &&& DS_TILE_BOTTOM != 0)
    ((type &&& DS_TILE_AXIS) == DS_TILE_ROWS) tX tY tc tr

/-- The tiled branch of `drawPixel` (lines 322-362): locate the tile of the
point, compute the tile-local coordinates, and flip the local copy of the
corner bits on odd zigzag tile lines. -/
def tileResolve (type mW mH tX tY x y : Nat) : TileRes :=
  let tc := x / mW
  let tr := y / mH
  let lx := x - tc * mW
  let ly := y - tr * mH
  let mm := tileMajMin type tX tY tc tr
  let zig := (type &&& DS_TILE_SEQUENCE) != DS_TILE_PROGRESSIVE
  let corner :=
    if zig && (mm.major &&& 1 == 1) then
      (type &&& DS_MATRIX_CORNER) ^^^ DS_MATRIX_CORNER
    else type &&& DS_MATRIX_CORNER
  { tileOffset := lineIndex zig mm.major mm.minor mm.scale * mW * mH
    corner := corner
    lx := lx
    ly := ly }

/-! ### The object state -/

/-- The fields of `Adafruit_DotStarMatrix` relevant to addressing, together
with the inherited `Adafruit_GFX` geometry (`WIDTH`/`HEIGHT` are the
unrotated canvas dimensions fixed at construction, `rotation` the current
GFX rotation, always masked to 0-3 by `Adafruit_GFX::setRotation`) and the
inherited `Adafruit_DotStar` strip length `numLEDs`. -/
structure DSMatrix where
  type : Nat
  matrixWidth : Nat
  matrixHeight : Nat
  tilesX : Nat
  tilesY : Nat
  remapFn : Option (Nat → Nat → Nat)
  passThruColor : Nat
  passThruFlag : Bool
  WIDTH : Nat
  HEIGHT : Nat
  rotation : Fin 4
  numLEDs : Nat

/-- Modelled from the spec: the bounds check of the draw entry point is
"against current (rotated) canvas dimensions" (spec 4.6 step 1); the
corresponding `_width` field lives in the external Adafruit_GFX base class,
which swaps the constructor dimensions for the two odd rotations. -/
def logicalWidth (s : DSMatrix) : Nat :=
  match s.rotation.val with
  | 1 => s.HEIGHT
  | 3 => s.HEIGHT
  | _ => s.WIDTH

/-- Modelled from the spec: rotated canvas height (`_height` of
Adafruit_GFX), see `logicalWidth`. -/
def logicalHeight (s : DSMatrix) : Nat :=
  match s.rotation.val with
  | 1 => s.WIDTH
  | 3 => s.WIDTH
  | _ => s.HEIGHT

/-- The rotation switch of `drawPixel` (lines 295-311): maps an in-bounds
logical coordinate to the unrotated coordinate.  (In the source the guard
of line 292 has already ensured both components are non-negative and small
enough that the `int16_t` subtractions cannot go negative, so `Nat`
subtraction is exact here.) -/
def rotXY (s : DSMatrix) (x y : Nat) : Nat × Nat :=
  match s.rotation.val with
  | 1 => (s.WIDTH - 1 - y, x)
  | 2 => (s.WIDTH - 1 - x, s.HEIGHT - 1 - y)
  | 3 => (y, s.HEIGHT - 1 - x)
  | _ => (x, y)

/-- The standard (non-remap) index resolution of `drawPixel`
(lines 317-394): tile offset plus pixel offset, single-tile when
`tilesX == 0`. -/
def standardIndex (s : DSMatrix) (x y : Nat) : Nat :=
  if s.tilesX ≠ 0 then
    let t := tileResolve s.type s.matrixWidth s.matrixHeight s.tilesX s.tilesY x y
    t.tileOffset + pixelOffset s.type s.matrixWidth s.matrixHeight t.corner t.lx t.ly
  else
    pixelOffset s.type s.matrixWidth s.matrixHeight (s.type &&& DS_MATRIX_CORNER) x y

/-- The remap dispatch of `drawPixel` (lines 315-317): a custom remap
function, when installed, produces the pixel offset itself (with
`tileOffset` remaining 0). -/
def resolveIndex (s : DSMatrix) (x y : Nat) : Nat :=
  match s.remapFn with
  | some f => f x y
  | none => standardIndex s x y

/-- `expandColor` (lines 239-243): expand a 16-bit 5-6-5 color to 24 bits
through the gamma tables.  The tables `gamma5`/`gamma6` are an external
fixed asset (`gamma.h`), so they are parameters here. -/
def expandColor (g5 g6 : Nat → Nat) (color : Nat) : Nat :=
  (g5 (color >>> 11) <<< 16) ||| (g6 ((color >>> 5) &&& 0x3F) <<< 8) |||
    g5 (color &&& 0x1F)

/-- `Adafruit_DotStarMatrix::drawPixel` (lines 290-398), as a state
transformer: returns the object state after the call together with the
`(linear index, color)` pair passed to `setPixelColor`, or `none` when the
bounds check of line 292 clips the call.  `g5`/`g6` are the gamma tables
consumed by `expandColor`. -/
def drawPixel (g5 g6 : Nat → Nat) (s : DSMatrix) (x y : Int) (color : Nat) :
    DSMatrix × Option (Nat × Nat) :=
  if x < 0 ∨ y < 0 ∨ (logicalWidth s : Int) ≤ x ∨ (logicalHeight s : Int) ≤ y then
    (s, none)
  else
    let p := rotXY s x.toNat y.toNat
    (s, some (resolveIndex s p.1 p.2,
              if s.passThruFlag then s.passThruColor else expandColor g5 g6 color))

/-- `Adafruit_DotStarMatrix::fillScreen` (lines 405-413), as a state
transformer: resolves the effective color once and emits it at every index
in `[0, numPixels())`. -/
def fillScreen (g5 g6 : Nat → Nat) (s : DSMatrix) (color : Nat) :
    DSMatrix × List (Nat × Nat) :=
  let c := if s.passThruFlag then s.passThruColor else expandColor g5 g6 color
  (s, (List.range s.numLEDs).map fun i => (i, c))

/-- The element count bounding every linear index (spec section 3):
`W*H*X*Y`, or `W*H` when untiled.  This equals the LED count the
constructors pass to the Adafruit_DotStar base. -/
def elementCount (s : DSMatrix) : Nat :=
  if s.tilesX = 0 then s.matrixWidth * s.matrixHeight
  else s.matrixWidth * s.matrixHeight * s.tilesX * s.tilesY

/-! ### Constructors and setters

The C++ stores `w`/`h` into `uint8_t` fields, hence the `% 256`; the
`passThruColor` field has no initializer in the class, so its indeterminate
initial contents are a parameter `u`.  `Adafruit_GFX(w, h)` sets
`WIDTH = w`, `HEIGHT = h`, `rotation = 0`. -/

/-- Constructor for single matrix w/hardware SPI (lines 88-91). -/
def mkSingleMatrix (w h matrixType ledType u : Nat) : DSMatrix :=
  { type := matrixType % 256
    matrixWidth := w % 256
    matrixHeight := h % 256
    tilesX := 0
    tilesY := 0
    remapFn := none
    passThruColor := u
    passThruFlag := false
    WIDTH := w
    HEIGHT := h
    rotation := 0
    numLEDs := w * h }

/-- Constructor for single matrix w/bitbang SPI (lines 131-136); the data
and clock pins `d`/`c` configure only the external transport. -/
def mkSingleMatrixBitbang (w h d c matrixType ledType u : Nat) : DSMatrix :=
  { type := matrixType % 256
    matrixWidth := w % 256
    matrixHeight := h % 256
    tilesX := 0
    tilesY := 0
    remapFn := none
    passThruColor := u
    passThruFlag := false
    WIDTH := w
    HEIGHT := h
    rotation := 0
    numLEDs := w * h }

/-- Constructor for tiled matrices w/hardware SPI (lines 175-182). -/
def mkTiledMatrix (mW mH tX tY matrixType ledType u : Nat) : DSMatrix :=
  { type := matrixType % 256
    matrixWidth := mW % 256
    matrixHeight := mH % 256
    tilesX := tX % 256
    tilesY := tY % 256
    remapFn := none
    passThruColor := u
    passThruFlag := false
    WIDTH := mW % 256 * (tX % 256)
    HEIGHT := mH % 256 * (tY % 256)
    rotation := 0
    numLEDs := mW % 256 * (mH % 256) * (tX % 256) * (tY % 256) }

/-- `setPassThruColor(uint32_t)` (lines 272-275). -/
def setPassThruColor (s : DSMatrix) (c : Nat) : DSMatrix :=
  { s with passThruColor := c, passThruFlag := true }

/-- `setPassThruColor(void)` (line 281). -/
def unsetPassThruColor (s : DSMatrix) : DSMatrix :=
  { s with passThruFlag := false }

/-- `setRemapFunction` (lines 429-432); `none` models a NULL pointer. -/
def setRemapFunction (s : DSMatrix) (fn : Option (Nat → Nat → Nat)) : DSMatrix :=
  { s with remapFn := fn }

/-! ### Arithmetic helper lemmas -/

theorem addMul_lt {a A b B : Nat} (ha : a < A) (hb : b < B) : a * B + b < A * B := by
  have h1 : (a + 1) * B = a * B + B := by ring
  have h2 : (a + 1) * B ≤ A * B := Nat.mul_le_mul_right B ha
  omega

theorem addMul_inj {S a a' b b' : Nat} (hb : b < S) (hb' : b' < S)
    (h : a * S + b = a' * S + b') : a = a' ∧ b = b' := by
  rcases Nat.lt_trichotomy a a' with hc | hc | hc
  · exfalso
    have h1 : (a + 1) * S ≤ a' * S := Nat.mul_le_mul_right S hc
    have h2 : (a + 1) * S = a * S + S := by ring
    omega
  · subst hc
    exact ⟨rfl, by omega⟩
  · exfalso
    have h1 : (a' + 1) * S ≤ a * S := Nat.mul_le_mul_right S hc
    have h2 : (a' + 1) * S = a' * S + S := by ring
    omega

theorem div_mul_sub_mod (x n : Nat) : x - x / n * n = x % n := by
  have h := Nat.div_add_mod x n
  calc x - x / n * n = n * (x / n) + x % n - x / n * n := by rw [h]
    _ = x / n * n + x % n - x / n * n := by rw [Nat.mul_comm]
    _ = x % n := by omega

theorem div_mul_add_mod (x n : Nat) : x / n * n + x % n = x := by
  rw [Nat.mul_comm]
  exact Nat.div_add_mod x n

theorem mul_pos_rev {a b : Nat} (h : 0 < a * b) : 0 < a ∧ 0 < b := by
  constructor
  · exact Nat.pos_of_ne_zero fun h0 => by simp [h0] at h
  · exact Nat.pos_of_ne_zero fun h0 => by simp [h0] at h

/-! ### Properties of the shared corner/axis/zigzag core -/

theorem lineIndex_decomp (zig : Bool) (major minor S : Nat) (hmin : minor < S) :
    lineIndex zig major minor S =
      major * S + (if zig && (major &&& 1 == 1) then S - 1 - minor else minor) := by
  by_cases hz : (zig && (major &&& 1 == 1)) = true
  · have e : (major + 1) * S = major * S + S := by ring
    rw [lineIndex, if_pos hz, if_pos hz]
    omega
  · rw [lineIndex, if_neg hz, if_neg hz]

theorem lineIndex_lt (zig : Bool) {M S major minor : Nat} (hmaj : major < M)
    (hmin : minor < S) : lineIndex zig major minor S < M * S := by
  rw [lineIndex_decomp zig major minor S hmin]
  exact addMul_lt hmaj (by split <;> omega)

theorem lineIndex_inj (zig : Bool) {S major minor major' minor' : Nat}
    (hmin : minor < S) (hmin' : minor' < S)
    (h : lineIndex zig major minor S = lineIndex zig major' minor' S) :
    major = major' ∧ minor = minor' := by
  rw [lineIndex_decomp zig major minor S hmin,
    lineIndex_decomp zig major' minor' S hmin'] at h
  obtain ⟨h1, h2⟩ := addMul_inj (by split <;> omega) (by split <;> omega) h
  subst h1
  refine ⟨rfl, ?_⟩
  by_cases hz : (zig && (major &&& 1 == 1)) = true
  · rw [if_pos hz, if_pos hz] at h2
    omega
  · rwa [if_neg hz, if_neg hz] at h2

theorem orientLine_lt (zig fm fM rows : Bool) {a b u v : Nat} (hu : u < a)
    (hv : v < b) :
    lineIndex zig (orientMajMin fm fM rows a b u v).major
        (orientMajMin fm fM rows a b u v).minor
        (orientMajMin fm fM rows a b u v).scale < a * b := by
  cases rows
  · simp only [orientMajMin, Bool.false_eq_true, if_false]
    exact @lineIndex_lt zig a b _ _ (by split <;> omega) (by split <;> omega)
  · simp only [orientMajMin, if_true]
    have h := @lineIndex_lt zig b a (if fM then b - 1 - v else v)
      (if fm then a - 1 - u else u) (by split <;> omega) (by split <;> omega)
    rwa [Nat.mul_comm b a] at h

theorem orientLine_inj (zig fm fM rows : Bool) {a b u v u' v' : Nat}
    (hu : u < a) (hv : v < b) (hu' : u' < a) (hv' : v' < b)
    (h : lineIndex zig (orientMajMin fm fM rows a b u v).major
           (orientMajMin fm fM rows a b u v).minor
           (orientMajMin fm fM rows a b u v).scale
         = lineIndex zig (orientMajMin fm fM rows a b u' v').major
             (orientMajMin fm fM rows a b u' v').minor
             (orientMajMin fm fM rows a b u' v').scale) :
    u = u' ∧ v = v' := by
  cases rows
  · simp only [orientMajMin, Bool.false_eq_true, if_false] at h
    obtain ⟨h1, h2⟩ := lineIndex_inj zig (by split <;> omega) (by split <;> omega) h
    constructor
    · by_cases hf : fm = true <;> simp [hf] at h1 <;> omega
    · by_cases hf : fM = true <;> simp [hf] at h2 <;> omega
  · simp only [orientMajMin, if_true] at h
    obtain ⟨h1, h2⟩ := lineIndex_inj zig (by split <;> omega) (by split <;> omega) h
    constructor
    · by_cases hf : fm = true <;> simp [hf] at h2 <;> omega
    · by_cases hf : fM = true <;> simp [hf] at h1 <;> omega

theorem orientMajMin_congr (fm fM rows : Bool) (a b : Nat) {u v u' v' : Nat}
    (hu : u = u') (hv : v = v') :
    orientMajMin fm fM rows a b u v = orientMajMin fm fM rows a b u' v' := by
  rw [hu, hv]

/-! ### Properties of the pixel resolver -/

theorem pixelOffset_lt {type mW mH corner x y : Nat} (hx : x < mW) (hy : y < mH) :
    pixelOffset type mW mH corner x y < mW * mH := by
  simp only [pixelOffset, pixelMajMin]
  exact orientLine_lt _ _ _ _ hx hy

theorem pixelOffset_inj {type mW mH corner x y x' y' : Nat} (hx : x < mW)
    (hy : y < mH) (hx' : x' < mW) (hy' : y' < mH)
    (h : pixelOffset type mW mH corner x y = pixelOffset type mW mH corner x' y') :
    x = x' ∧ y = y' := by
  simp only [pixelOffset, pixelMajMin] at h
  exact orientLine_inj _ _ _ _ hx hy hx' hy' h

/-! ### Properties of the tile resolver -/

theorem tileResolve_parts (type mW mH tX tY x y : Nat) :
    tileResolve type mW mH tX tY x y =
      { tileOffset := lineIndex ((type &&& DS_TILE_SEQUENCE) != DS_TILE_PROGRESSIVE)
            (tileMajMin type tX tY (x / mW) (y / mH)).major
            (tileMajMin type tX tY (x / mW) (y / mH)).minor
            (tileMajMin type tX tY (x / mW) (y / mH)).scale * mW * mH
        corner := if ((type &&& DS_TILE_SEQUENCE) != DS_TILE_PROGRESSIVE)
              && ((tileMajMin type tX tY (x / mW) (y / mH)).major &&& 1 == 1) then
            (type &&& DS_MATRIX_CORNER) ^^^ DS_MATRIX_CORNER
          else type &&& DS_MATRIX_CORNER
        lx := x % mW
        ly := y % mH } := by
  simp only [tileResolve, div_mul_sub_mod]

/-- The tiled branch of `standardIndex`, rewritten with explicit
quotient/remainder coordinates. -/
theorem standardIndex_tiled_eq (s : DSMatrix) (hne : s.tilesX ≠ 0) (x y : Nat) :
    standardIndex s x y =
      lineIndex ((s.type &&& DS_TILE_SEQUENCE) != DS_TILE_PROGRESSIVE)
          (tileMajMin s.type s.tilesX s.tilesY (x / s.matrixWidth) (y / s.matrixHeight)).major
          (tileMajMin s.type s.tilesX s.tilesY (x / s.matrixWidth) (y / s.matrixHeight)).minor
          (tileMajMin s.type s.tilesX s.tilesY (x / s.matrixWidth) (y / s.matrixHeight)).scale
        * (s.matrixWidth * s.matrixHeight)
      + pixelOffset s.type s.matrixWidth s.matrixHeight
          (if ((s.type &&& DS_TILE_SEQUENCE) != DS_TILE_PROGRESSIVE)
              && ((tileMajMin s.type s.tilesX s.tilesY (x / s.matrixWidth)
                    (y / s.matrixHeight)).major &&& 1 == 1) then
            (s.type &&& DS_MATRIX_CORNER) ^^^ DS_MATRIX_CORNER
          else s.type &&& DS_MATRIX_CORNER)
          (x % s.matrixWidth) (y % s.matrixHeight) := by
  rw [standardIndex, if_pos hne, tileResolve_parts, Nat.mul_assoc]

/-! ### Properties of the standard (non-remap) index resolution -/

/-- The geometry consistency a constructed object guarantees: either untiled
with the GFX canvas equal to the matrix, or tiled with at least one tile per
axis and the canvas the tile grid. -/
def GoodGeometry (s : DSMatrix) : Prop :=
  (s.tilesX = 0 ∧ s.WIDTH = s.matrixWidth ∧ s.HEIGHT = s.matrixHeight) ∨
    (1 ≤ s.tilesX ∧ 1 ≤ s.tilesY ∧ s.WIDTH = s.matrixWidth * s.tilesX ∧
      s.HEIGHT = s.matrixHeight * s.tilesY)

theorem standardIndex_lt (s : DSMatrix) (hgeo : GoodGeometry s) {x y : Nat}
    (hx : x < s.WIDTH) (hy : y < s.HEIGHT) :
    standardIndex s x y < elementCount s := by
  rcases hgeo with ⟨h0, hw, hh⟩ | ⟨htX, htY, hw, hh⟩
  · rw [standardIndex, if_neg (by omega), elementCount, if_pos h0]
    exact pixelOffset_lt (hw ▸ hx) (hh ▸ hy)
  · have hne : s.tilesX ≠ 0 := by omega
    rw [hw] at hx
    rw [hh] at hy
    obtain ⟨hmW, -⟩ := mul_pos_rev (Nat.lt_of_le_of_lt (Nat.zero_le x) hx)
    obtain ⟨hmH, -⟩ := mul_pos_rev (Nat.lt_of_le_of_lt (Nat.zero_le y) hy)
    have htc : x / s.matrixWidth < s.tilesX :=
      (Nat.div_lt_iff_lt_mul hmW).2 (by rw [Nat.mul_comm]; exact hx)
    have htr : y / s.matrixHeight < s.tilesY :=
      (Nat.div_lt_iff_lt_mul hmH).2 (by rw [Nat.mul_comm]; exact hy)
    have htile := orientLine_lt ((s.type &&& DS_TILE_SEQUENCE) != DS_TILE_PROGRESSIVE)
      (s.type &&& DS_TILE_RIGHT != 0) (s.type &&& DS_TILE_BOTTOM != 0)
      ((s.type &&& DS_TILE_AXIS) == DS_TILE_ROWS) htc htr
    have hpo : ∀ corner, pixelOffset s.type s.matrixWidth s.matrixHeight corner
        (x % s.matrixWidth) (y % s.matrixHeight) <
          s.matrixWidth * s.matrixHeight :=
      fun corner => pixelOffset_lt (Nat.mod_lt x hmW) (Nat.mod_lt y hmH)
    rw [standardIndex_tiled_eq s hne, elementCount, if_neg hne]
    calc _ < (s.tilesX * s.tilesY) * (s.matrixWidth * s.matrixHeight) := by
            exact addMul_lt (by simpa [tileMajMin] using htile) (hpo _)
      _ = s.matrixWidth * s.matrixHeight * s.tilesX * s.tilesY := by ring

theorem standardIndex_inj (s : DSMatrix) (hgeo : GoodGeometry s) {x y x' y' : Nat}
    (hx : x < s.WIDTH) (hy : y < s.HEIGHT) (hx' : x' < s.WIDTH) (hy' : y' < s.HEIGHT)
    (h : standardIndex s x y = standardIndex s x' y') : x = x' ∧ y = y' := by
  rcases hgeo with ⟨h0, hw, hh⟩ | ⟨htX, htY, hw, hh⟩
  · rw [standardIndex, if_neg (by omega), standardIndex, if_neg (by omega)] at h
    exact pixelOffset_inj (hw ▸ hx) (hh ▸ hy) (hw ▸ hx') (hh ▸ hy') h
  · have hne : s.tilesX ≠ 0 := by omega
    rw [hw] at hx hx'
    rw [hh] at hy hy'
    obtain ⟨hmW, -⟩ := mul_pos_rev (Nat.lt_of_le_of_lt (Nat.zero_le x) hx)
    obtain ⟨hmH, -⟩ := mul_pos_rev (Nat.lt_of_le_of_lt (Nat.zero_le y) hy)
    have htc : x / s.matrixWidth < s.tilesX :=
      (Nat.div_lt_iff_lt_mul hmW).2 (by rw [Nat.mul_comm]; exact hx)
    have htr : y / s.matrixHeight < s.tilesY :=
      (Nat.div_lt_iff_lt_mul hmH).2 (by rw [Nat.mul_comm]; exact hy)
    have htc' : x' / s.matrixWidth < s.tilesX :=
      (Nat.div_lt_iff_lt_mul hmW).2 (by rw [Nat.mul_comm]; exact hx')
    have htr' : y' / s.matrixHeight < s.tilesY :=
      (Nat.div_lt_iff_lt_mul hmH).2 (by rw [Nat.mul_comm]; exact hy')
    rw [standardIndex_tiled_eq s hne, standardIndex_tiled_eq s hne] at h
    obtain ⟨htile, hpo⟩ := addMul_inj
      (pixelOffset_lt (Nat.mod_lt x hmW) (Nat.mod_lt y hmH))
      (pixelOffset_lt (Nat.mod_lt x' hmW) (Nat.mod_lt y' hmH)) h
    obtain ⟨hdx, hdy⟩ := orientLine_inj
      ((s.type &&& DS_TILE_SEQUENCE) != DS_TILE_PROGRESSIVE)
      (s.type &&& DS_TILE_RIGHT != 0) (s.type &&& DS_TILE_BOTTOM != 0)
      ((s.type &&& DS_TILE_AXIS) == DS_TILE_ROWS) htc htr htc' htr'
      (by simpa [tileMajMin] using htile)
    rw [show tileMajMin s.type s.tilesX s.tilesY (x / s.matrixWidth)
          (y / s.matrixHeight)
        = tileMajMin s.type s.tilesX s.tilesY (x' / s.matrixWidth)
          (y' / s.matrixHeight) by rw [hdx, hdy]] at hpo
    obtain ⟨hmx, hmy⟩ := pixelOffset_inj (Nat.mod_lt x hmW) (Nat.mod_lt y hmH)
      (Nat.mod_lt x' hmW) (Nat.mod_lt y' hmH) hpo
    constructor
    · rw [← div_mul_add_mod x s.matrixWidth, ← div_mul_add_mod x' s.matrixWidth,
        hdx, hmx]
    · rw [← div_mul_add_mod y s.matrixHeight, ← div_mul_add_mod y' s.matrixHeight,
        hdy, hmy]

/-! ### Properties of the rotation transform -/

theorem rotXY_lt (s : DSMatrix) {x y : Nat} (hx : x < logicalWidth s)
    (hy : y < logicalHeight s) :
    (rotXY s x y).1 < s.WIDTH ∧ (rotXY s x y).2 < s.HEIGHT := by
  have hv : s.rotation.val < 4 := s.rotation.isLt
  unfold rotXY logicalWidth logicalHeight at *
  generalize hr : s.rotation.val = v at hx hy hv ⊢
  interval_cases v <;> simp at hx hy ⊢ <;> omega

theorem rotXY_inj (s : DSMatrix) {x y x' y' : Nat} (hx : x < logicalWidth s)
    (hy : y < logicalHeight s) (hx' : x' < logicalWidth s)
    (hy' : y' < logicalHeight s) (h : rotXY s x y = rotXY s x' y') :
    x = x' ∧ y = y' := by
  have hv : s.rotation.val < 4 := s.rotation.isLt
  unfold rotXY logicalWidth logicalHeight at *
  generalize hr : s.rotation.val = v at hx hy hx' hy' hv h
  interval_cases v <;> simp_all [Prod.ext_iff] <;> omega

/-! ### Characterization of a non-clipped drawPixel call -/

theorem drawPixel_some (g5 g6 : Nat → Nat) (s : DSMatrix) {x y : Int}
    {c i col : Nat} (h : (drawPixel g5 g6 s x y c).2 = some (i, col)) :
    0 ≤ x ∧ 0 ≤ y ∧ x < (logicalWidth s : Int) ∧ y < (logicalHeight s : Int) ∧
      i = resolveIndex s (rotXY s x.toNat y.toNat).1 (rotXY s x.toNat y.toNat).2 ∧
      col = if s.passThruFlag then s.passThruColor else expandColor g5 g6 c := by
  rw [drawPixel] at h
  split at h
  · simp at h
  · rename_i hcond
    push_neg at hcond
    simp only [Option.some.injEq, Prod.mk.injEq] at h
    exact ⟨hcond.1, hcond.2.1, hcond.2.2.1, hcond.2.2.2, h.1.symm, h.2.symm⟩

theorem resolveIndex_of_none {s : DSMatrix} (hre : s.remapFn = none) (x y : Nat) :
    resolveIndex s x y = standardIndex s x y := by
  rw [resolveIndex, hre]

/-! ### The claims -/

/-- C1: for every fixed configuration (tile geometry with `W, H >= 1`, any
combination of the layout flag bit groups, rotation fixed, no remap
function), the map computed by `drawPixel` from in-bounds logical
coordinates to the emitted linear index `tileOffset + pixelOffset` is
injective, and every index it produces lies in `[0, elementCount)` where
`elementCount = W*H*X*Y` (or `W*H` untiled). -/
theorem drawPixel_index_injective_and_in_range
    (g5 g6 : Nat → Nat) (s : DSMatrix) (c c' : Nat) (x y x' y' : Int)
    (i col i' col' : Nat)
    (hre : s.remapFn = none)
    (hW : 1 ≤ s.matrixWidth) (hH : 1 ≤ s.matrixHeight)
    (hgeo : GoodGeometry s)
    (hdraw : (drawPixel g5 g6 s x y c).2 = some (i, col))
    (hdraw' : (drawPixel g5 g6 s x' y' c').2 = some (i', col')) :
    i < elementCount s ∧ (i = i' → x = x' ∧ y = y') := by
  obtain ⟨hx0, hy0, hxw, hyh, hi, -⟩ := drawPixel_some g5 g6 s hdraw
  obtain ⟨hx0', hy0', hxw', hyh', hi', -⟩ := drawPixel_some g5 g6 s hdraw'
  have hxn : x.toNat < logicalWidth s := by omega
  have hyn : y.toNat < logicalHeight s := by omega
  have hxn' : x'.toNat < logicalWidth s := by omega
  have hyn' : y'.toNat < logicalHeight s := by omega
  have hrot := rotXY_lt s hxn hyn
  have hrot' := rotXY_lt s hxn' hyn'
  rw [resolveIndex_of_none hre] at hi
  rw [resolveIndex_of_none hre] at hi'
  constructor
  · rw [hi]
    exact standardIndex_lt s hgeo hrot.1 hrot.2
  · intro hii
    rw [hi, hi'] at hii
    obtain ⟨ha, hb⟩ := standardIndex_inj s hgeo hrot.1 hrot.2 hrot'.1 hrot'.2 hii
    obtain ⟨hxx, hyy⟩ := rotXY_inj s hxn hyn hxn' hyn'
      (Prod.ext_iff.2 ⟨ha, hb⟩)
    omega

/-- Witness for C1 at a concrete all-zigzag tiled configuration. -/
theorem drawPixel_index_injective_and_in_range_witness :
    15 < elementCount (mkTiledMatrix 2 2 2 2 255 0 0) ∧
      (15 = 15 → (1 : Int) = 1 ∧ (2 : Int) = 2) :=
  drawPixel_index_injective_and_in_range (fun n => n) (fun n => n)
    (mkTiledMatrix 2 2 2 2 255 0 0) 0 0 1 2 1 2 15 0 15 0 rfl (by decide)
    (by decide) (Or.inr ⟨by decide, by decide, by decide, by decide⟩) rfl rfl

/-- C2 counterexample: on the untiled 8x8 matrix with flags
top + right + columns + progressive, `drawPixel(0,0,c)` resolves to linear
index 56, not 0 as the claim states (the first pixel of the chain sits at
the top-right corner (7,0), so (0,0) is the last pixel of the last
column). -/
theorem scenario1_counterexample :
    ((drawPixel (fun n => n) (fun n => n)
          (mkSingleMatrix 8 8
            (DS_MATRIX_TOP + DS_MATRIX_RIGHT + DS_MATRIX_COLUMNS +
              DS_MATRIX_PROGRESSIVE) 0 0) 0 0 0).2).map Prod.fst = some 56 ∧
      ((drawPixel (fun n => n) (fun n => n)
          (mkSingleMatrix 8 8
            (DS_MATRIX_TOP + DS_MATRIX_RIGHT + DS_MATRIX_COLUMNS +
              DS_MATRIX_PROGRESSIVE) 0 0) 0 0 0).2).map Prod.fst ≠ some 0 := by
  constructor
  · rfl
  · decide

/-- C2 amended: for an untiled 8x8 matrix with flags
top + right + columns + progressive, rotation 0 and no remap,
`drawPixel(0,0,c)` resolves to linear index 56 and `drawPixel(7,0,c)` to
linear index 0 (the claim had the two values swapped). -/
theorem scenario1_amended :
    ((drawPixel (fun n => n) (fun n => n)
          (mkSingleMatrix 8 8
            (DS_MATRIX_TOP + DS_MATRIX_RIGHT + DS_MATRIX_COLUMNS +
              DS_MATRIX_PROGRESSIVE) 0 0) 0 0 0).2).map Prod.fst = some 56 ∧
      ((drawPixel (fun n => n) (fun n => n)
          (mkSingleMatrix 8 8
            (DS_MATRIX_TOP + DS_MATRIX_RIGHT + DS_MATRIX_COLUMNS +
              DS_MATRIX_PROGRESSIVE) 0 0) 7 0 0).2).map Prod.fst = some 0 :=
  ⟨rfl, rfl⟩

/-- C3: a `drawPixel` call whose coordinate is out of the current (rotated)
canvas bounds returns without emitting anything and without changing any
state: the bounds check precedes the rotation transform (it is phrased
against the rotated dimensions) and short-circuits the whole call. -/
theorem drawPixel_out_of_bounds_noop (g5 g6 : Nat → Nat) (s : DSMatrix)
    (x y : Int) (c : Nat)
    (h : x < 0 ∨ y < 0 ∨ (logicalWidth s : Int) ≤ x ∨
      (logicalHeight s : Int) ≤ y) :
    drawPixel g5 g6 s x y c = (s, none) := by
  rw [drawPixel, if_pos h]

/-- Witness for C3: a draw at x = -1 is silently clipped. -/
theorem drawPixel_out_of_bounds_noop_witness :
    drawPixel (fun n => n) (fun n => n) (mkSingleMatrix 8 8 6 0 0) (-1) 0 0 =
      (mkSingleMatrix 8 8 6 0 0, none) :=
  drawPixel_out_of_bounds_noop (fun n => n) (fun n => n)
    (mkSingleMatrix 8 8 6 0 0) (-1) 0 0 (Or.inl (by decide))

/-- C4: for in-bounds coordinates, `drawPixel` applies the rotation
transform exactly as specified — rotation 0 is the identity, rotation 1
(90 degrees clockwise) maps (x, y) to (W0-1-y, x), rotation 2 to
(W0-1-x, H0-1-y), rotation 3 (270 degrees clockwise) to (y, H0-1-x) — and
the transformed coordinate feeds the index resolution (remap function or
tile/pixel resolvers, via `resolveIndex`). -/
theorem drawPixel_rotation_transform (g5 g6 : Nat → Nat) (s : DSMatrix)
    (x y : Nat) (hx : x < logicalWidth s) (hy : y < logicalHeight s) :
    (s.rotation = 0 → rotXY s x y = (x, y)) ∧
      (s.rotation = 1 → rotXY s x y = (s.WIDTH - 1 - y, x)) ∧
      (s.rotation = 2 → rotXY s x y = (s.WIDTH - 1 - x, s.HEIGHT - 1 - y)) ∧
      (s.rotation = 3 → rotXY s x y = (y, s.HEIGHT - 1 - x)) ∧
      ∀ c : Nat, (drawPixel g5 g6 s (x : Int) (y : Int) c).2 =
        some (resolveIndex s (rotXY s x y).1 (rotXY s x y).2,
          if s.passThruFlag then s.passThruColor else expandColor g5 g6 c) := by
  refine ⟨?_, ?_, ?_, ?_, ?_⟩
  · intro h
    have hval : s.rotation.val = 0 := by rw [h]; rfl
    simp [rotXY, hval]
  · intro h
    have hval : s.rotation.val = 1 := by rw [h]; rfl
    simp [rotXY, hval]
  · intro h
    have hval : s.rotation.val = 2 := by rw [h]; rfl
    simp [rotXY, hval]
  · intro h
    have hval : s.rotation.val = 3 := by rw [h]; rfl
    simp [rotXY, hval]
  · intro c
    rw [drawPixel, if_neg (by omega)]
    simp

/-- Witness for C4 at rotation 1 on a 4x4 matrix: (0,0) maps to (3,0). -/
theorem drawPixel_rotation_transform_witness :
    rotXY { mkSingleMatrix 4 4 0 0 0 with rotation := 1 } 0 0 = (3, 0) :=
  (drawPixel_rotation_transform (fun n => n) (fun n => n)
      { mkSingleMatrix 4 4 0 0 0 with rotation := 1 } 0 0 (by decide)
      (by decide)).2.1 rfl

/-- C5: for an untiled matrix with flags top-left corner, row-major axis
and progressive sequence, at rotation 0 with no remap function, every
in-bounds draw resolves to linear index `y * width + x` exactly. -/
theorem progressive_rowmajor_topleft_index (g5 g6 : Nat → Nat)
    (s : DSMatrix) (c : Nat) (x y : Nat)
    (hcorner : s.type &&& DS_MATRIX_CORNER = DS_MATRIX_TOP ||| DS_MATRIX_LEFT)
    (haxis : s.type &&& DS_MATRIX_AXIS = DS_MATRIX_ROWS)
    (hseq : s.type &&& DS_MATRIX_SEQUENCE = DS_MATRIX_PROGRESSIVE)
    (huntiled : s.tilesX = 0) (hre : s.remapFn = none) (hrot : s.rotation = 0)
    (hW : s.WIDTH = s.matrixWidth) (hH : s.HEIGHT = s.matrixHeight)
    (hx : x < s.matrixWidth) (hy : y < s.matrixHeight) :
    ((drawPixel g5 g6 s (x : Int) (y : Int) c).2).map Prod.fst =
      some (y * s.matrixWidth + x) := by
  have hval : s.rotation.val = 0 := by rw [hrot]; rfl
  have hlw : logicalWidth s = s.matrixWidth := by
    simp [logicalWidth, hval, hW]
  have hlh : logicalHeight s = s.matrixHeight := by
    simp [logicalHeight, hval, hH]
  have hseq8 : s.type &&& 8 = 0 := hseq
  have haxis4 : s.type &&& 4 = 0 := haxis
  rw [drawPixel, if_neg (by omega)]
  simp only [Option.map_some, Prod.fst]
  rw [resolveIndex_of_none hre, standardIndex, if_neg (by omega), hcorner]
  simp [rotXY, hval, pixelOffset, pixelMajMin, orientMajMin, lineIndex,
    hseq8, haxis4, DS_MATRIX_TOP, DS_MATRIX_LEFT, DS_MATRIX_RIGHT,
    DS_MATRIX_BOTTOM, DS_MATRIX_AXIS, DS_MATRIX_ROWS, DS_MATRIX_SEQUENCE,
    DS_MATRIX_PROGRESSIVE]

/-- Setting the zigzag bit leaves the axis bit group unchanged (the bit
groups of the layout byte do not overlap). -/
theorem or_zigzag_and_axis (t : Nat) :
    (t ||| DS_MATRIX_ZIGZAG) &&& DS_MATRIX_AXIS = t &&& DS_MATRIX_AXIS := by
  show (t ||| 8) &&& 4 = t &&& 4
  apply Nat.eq_of_testBit_eq
  intro i
  rw [Nat.testBit_and, Nat.testBit_or, Nat.testBit_and]
  rw [show (8 : Nat) = 2 ^ 3 by norm_num, show (4 : Nat) = 2 ^ 2 by norm_num]
  simp only [Nat.testBit_two_pow]
  by_cases h2 : (2 : Nat) = i
  · subst h2
    simp
  · simp [h2]

/-- Setting the zigzag bit makes the sequence bit group read zigzag. -/
theorem or_zigzag_and_seq (t : Nat) :
    (t ||| DS_MATRIX_ZIGZAG) &&& DS_MATRIX_SEQUENCE = DS_MATRIX_ZIGZAG := by
  show (t ||| 8) &&& 8 = 8
  apply Nat.eq_of_testBit_eq
  intro i
  rw [Nat.testBit_and, Nat.testBit_or]
  rw [show (8 : Nat) = 2 ^ 3 by norm_num]
  simp only [Nat.testBit_two_pow]
  by_cases h3 : (3 : Nat) = i
  · subst h3
    simp
  · simp [h3]

/-- C6: for any configuration whose pixel-level sequence is progressive,
setting only the pixel-sequence bit to zigzag leaves every even-numbered
major line's indices unchanged and, on each odd-numbered major line,
replaces the index `major * majorScale + minor` by
`(major + 1) * majorScale - 1 - minor`. -/
theorem zigzag_flip_line_relation (type mW mH corner x y : Nat)
    (hprog : type &&& DS_MATRIX_SEQUENCE = DS_MATRIX_PROGRESSIVE) :
    pixelOffset type mW mH corner x y =
        (pixelMajMin type mW mH corner x y).major *
            (pixelMajMin type mW mH corner x y).scale +
          (pixelMajMin type mW mH corner x y).minor ∧
      ((pixelMajMin type mW mH corner x y).major % 2 = 0 →
        pixelOffset (type ||| DS_MATRIX_ZIGZAG) mW mH corner x y =
          pixelOffset type mW mH corner x y) ∧
      ((pixelMajMin type mW mH corner x y).major % 2 = 1 →
        pixelOffset (type ||| DS_MATRIX_ZIGZAG) mW mH corner x y =
          ((pixelMajMin type mW mH corner x y).major + 1) *
              (pixelMajMin type mW mH corner x y).scale -
            1 - (pixelMajMin type mW mH corner x y).minor) := by
  have hmm : pixelMajMin (type ||| DS_MATRIX_ZIGZAG) mW mH corner x y =
      pixelMajMin type mW mH corner x y := by
    rw [pixelMajMin, pixelMajMin, or_zigzag_and_axis]
  have hz : (((type ||| DS_MATRIX_ZIGZAG) &&& DS_MATRIX_SEQUENCE) !=
      DS_MATRIX_PROGRESSIVE) = true := by
    rw [or_zigzag_and_seq]
    rfl
  have hp : ((type &&& DS_MATRIX_SEQUENCE) != DS_MATRIX_PROGRESSIVE) = false := by
    rw [hprog]
    rfl
  refine ⟨?_, ?_, ?_⟩
  · simp only [pixelOffset, hp, lineIndex]
    simp
  · intro he
    have hodd : ((pixelMajMin type mW mH corner x y).major &&& 1 == 1) = false := by
      rw [Nat.and_one_is_mod, he]
      rfl
    simp only [pixelOffset, hmm, hp, hz, lineIndex, hodd]
    simp
  · intro ho
    have hodd : ((pixelMajMin type mW mH corner x y).major &&& 1 == 1) = true := by
      rw [Nat.and_one_is_mod, ho]
      rfl
    simp only [pixelOffset, hmm, hz, lineIndex, hodd]
    simp

/-- Witness for C6: on a 4x4 top-left row-major matrix, after setting the
zigzag bit the point (1,3) on the odd major line 3 gets the reversed index
(3+1)*4-1-1 = 14. -/
theorem zigzag_flip_line_relation_witness :
    pixelOffset (0 ||| DS_MATRIX_ZIGZAG) 4 4 0 1 3 =
      ((pixelMajMin 0 4 4 0 1 3).major + 1) * (pixelMajMin 0 4 4 0 1 3).scale -
        1 - (pixelMajMin 0 4 4 0 1 3).minor :=
  (zigzag_flip_line_relation 0 4 4 0 1 3 rfl).2.2 (by decide)

/-- Witness for C5 on a 4x4 matrix with all-zero flags: (1,2) resolves to
index 9 = 2*4+1. -/
theorem progressive_rowmajor_topleft_index_witness :
    ((drawPixel (fun n => n) (fun n => n) (mkSingleMatrix 4 4 0 0 0) 1 2
          0).2).map Prod.fst =
      some (2 * (mkSingleMatrix 4 4 0 0 0).matrixWidth + 1) :=
  progressive_rowmajor_topleft_index (fun n => n) (fun n => n)
    (mkSingleMatrix 4 4 0 0 0) 0 1 2 rfl rfl rfl rfl rfl rfl rfl rfl
    (by decide) (by decide)

/-- C7: the passthrough state affects only the emitted color, never the
resolved index: two states differing only in the passthrough flag/value
(and possibly the color argument) target the identical linear index (or
are both clipped), and the emitted color is the stored raw value when
passthrough is active and `expandColor(color)` when it is not. -/
theorem passthrough_affects_only_color (g5 g6 : Nat → Nat) (s : DSMatrix)
    (f : Bool) (v : Nat) (x y : Int) (c c' : Nat) :
    ((drawPixel g5 g6 s x y c).2).map Prod.fst =
        ((drawPixel g5 g6 { s with passThruFlag := f, passThruColor := v } x y
            c').2).map Prod.fst ∧
      ∀ i col, (drawPixel g5 g6 s x y c).2 = some (i, col) →
        col = if s.passThruFlag then s.passThruColor
          else expandColor g5 g6 c := by
  constructor
  · have hlw : logicalWidth { s with passThruFlag := f, passThruColor := v } =
        logicalWidth s := rfl
    have hlh : logicalHeight { s with passThruFlag := f, passThruColor := v } =
        logicalHeight s := rfl
    have hres : resolveIndex { s with passThruFlag := f, passThruColor := v } =
        resolveIndex s := rfl
    have hrxy : rotXY { s with passThruFlag := f, passThruColor := v } =
        rotXY s := rfl
    simp only [drawPixel, hlw, hlh, hres, hrxy]
    split
    · rfl
    · simp
  · intro i col h
    exact (drawPixel_some g5 g6 s h).2.2.2.2.2

/-- Witness for C7: with a raw passthrough color 123456 installed, the draw
at (1,2) emits the raw value unchanged. -/
theorem passthrough_affects_only_color_witness :
    (123456 : Nat) =
      if (setPassThruColor (mkSingleMatrix 4 4 0 0 0) 123456).passThruFlag then
        (setPassThruColor (mkSingleMatrix 4 4 0 0 0) 123456).passThruColor
      else expandColor (fun n => n) (fun n => n) 0 :=
  (passthrough_affects_only_color (fun n => n) (fun n => n)
      (setPassThruColor (mkSingleMatrix 4 4 0 0 0) 123456) false 0 1 2 0 0).2
    9 123456 rfl

/-- C8: with a remap function installed, every in-bounds draw hands the
unrotated coordinates to the remap function and uses its return value
verbatim as the emitted linear index (the tile/pixel resolvers are not
consulted and the result is not bounds-checked), while installing `none`
restores the default tile+pixel resolution. -/
theorem remap_override_verbatim (g5 g6 : Nat → Nat) (s : DSMatrix)
    (f : Nat → Nat → Nat) (x y : Int) (c : Nat)
    (hx0 : 0 ≤ x) (hy0 : 0 ≤ y)
    (hx : x < (logicalWidth s : Int)) (hy : y < (logicalHeight s : Int)) :
    ((drawPixel g5 g6 (setRemapFunction s (some f)) x y c).2).map Prod.fst =
        some (f (rotXY s x.toNat y.toNat).1 (rotXY s x.toNat y.toNat).2) ∧
      ((drawPixel g5 g6 (setRemapFunction s none) x y c).2).map Prod.fst =
        some (standardIndex s (rotXY s x.toNat y.toNat).1
          (rotXY s x.toNat y.toNat).2) := by
  have hlw1 : logicalWidth (setRemapFunction s (some f)) = logicalWidth s := rfl
  have hlh1 : logicalHeight (setRemapFunction s (some f)) = logicalHeight s := rfl
  have hlw0 : logicalWidth (setRemapFunction s none) = logicalWidth s := rfl
  have hlh0 : logicalHeight (setRemapFunction s none) = logicalHeight s := rfl
  have hrxy1 : rotXY (setRemapFunction s (some f)) = rotXY s := rfl
  have hrxy0 : rotXY (setRemapFunction s none) = rotXY s := rfl
  have hstd : standardIndex (setRemapFunction s none) = standardIndex s := rfl
  constructor
  · rw [drawPixel, if_neg (by rw [hlw1, hlh1]; omega)]
    simp only [hrxy1, Option.map_some]
    rfl
  · rw [drawPixel, if_neg (by rw [hlw0, hlh0]; omega)]
    simp only [hrxy0, Option.map_some]
    rw [resolveIndex_of_none rfl, hstd]
    rfl

/-- Witness for C8: a remap function constantly returning the out-of-range
index 999 has its result used verbatim. -/
theorem remap_override_verbatim_witness :
    ((drawPixel (fun n => n) (fun n => n)
          (setRemapFunction (mkSingleMatrix 4 4 0 0 0) (some fun a b => 999)) 1
          2 0).2).map Prod.fst = some 999 :=
  (remap_override_verbatim (fun n => n) (fun n => n) (mkSingleMatrix 4 4 0 0 0)
      (fun a b => 999) 1 2 0 (by decide) (by decide) (by decide) (by decide)).1

/-- C9: neither `drawPixel` nor `fillScreen` mutates any field of the
object: the whole state (layout type, geometry, rotation, remap function,
passthrough flag and value) is returned unchanged by every draw call; in
particular the tile-level zigzag corner flip happens on a local copy of
the corner bits and never reaches the stored configuration. -/
theorem drawPixel_fillScreen_preserve_state (g5 g6 : Nat → Nat) (s : DSMatrix)
    (x y : Int) (c cf : Nat) :
    (drawPixel g5 g6 s x y c).1 = s ∧ (fillScreen g5 g6 s cf).1 = s := by
  constructor
  · rw [drawPixel]
    split
    · rfl
    · rfl
  · rfl

/-- C10: both single-matrix constructors initialize `tilesX = 0`,
`tilesY = 0` and `remapFn = NULL`, so drawing on an object they build never
enters the tiled branch: the resolved index is always tile offset 0 plus
the pixel resolver's offset, computed with the configured pixel corner
unmodified; and no setter ever changes the tile counts, so this persists
for the object's lifetime. -/
theorem single_matrix_untiled_invariant (w h matrixType ledType u d cp : Nat) :
    (mkSingleMatrix w h matrixType ledType u).tilesX = 0 ∧
      (mkSingleMatrix w h matrixType ledType u).tilesY = 0 ∧
      (mkSingleMatrix w h matrixType ledType u).remapFn = none ∧
      (mkSingleMatrixBitbang w h d cp matrixType ledType u).tilesX = 0 ∧
      (mkSingleMatrixBitbang w h d cp matrixType ledType u).tilesY = 0 ∧
      (mkSingleMatrixBitbang w h d cp matrixType ledType u).remapFn = none ∧
      (∀ x y : Nat,
        resolveIndex (mkSingleMatrix w h matrixType ledType u) x y =
          0 + pixelOffset (matrixType % 256) (w % 256) (h % 256)
            (matrixType % 256 &&& DS_MATRIX_CORNER) x y) ∧
      (∀ x y : Nat,
        resolveIndex (mkSingleMatrixBitbang w h d cp matrixType ledType u) x y =
          0 + pixelOffset (matrixType % 256) (w % 256) (h % 256)
            (matrixType % 256 &&& DS_MATRIX_CORNER) x y) ∧
      (∀ s : DSMatrix, ∀ c : Nat, ∀ fn,
        (setPassThruColor s c).tilesX = s.tilesX ∧
          (setPassThruColor s c).tilesY = s.tilesY ∧
          (unsetPassThruColor s).tilesX = s.tilesX ∧
          (unsetPassThruColor s).tilesY = s.tilesY ∧
          (setRemapFunction s fn).tilesX = s.tilesX ∧
          (setRemapFunction s fn).tilesY = s.tilesY) := by
  refine ⟨rfl, rfl, rfl, rfl, rfl, rfl, ?_, ?_, ?_⟩
  · intro x y
    rw [resolveIndex_of_none rfl, standardIndex,
      if_neg (by simp [mkSingleMatrix]), Nat.zero_add]
    rfl
  · intro x y
    rw [resolveIndex_of_none rfl, standardIndex,
      if_neg (by simp [mkSingleMatrixBitbang]), Nat.zero_add]
    rfl
  · intro s c fn
    exact ⟨rfl, rfl, rfl, rfl, rfl, rfl⟩

end DotStarMatrix
